import Mathlib

/-!
Formal model of PyTransit's swift transit-model kernels
(`pytransit/models/numba/swiftmodel.py`) and of the Gaussian
log-likelihood layer (`pytransit/lpf/lpf.py`), together with theorems
about their behaviour.  Floating-point arithmetic is modelled by exact
real arithmetic; NaN-able float inputs are modelled as `Option ℝ`
(with `none` playing the role of NaN) and the infinite-flux sentinel
as `(⊤ : EReal)`.  Arrays are modelled as lists or as index functions.
-/

namespace PyTransit

open Real

noncomputable section

/-- Scalar circle-circle intersection area, mirroring
`circle_circle_intersection_area(r1, r2, b)`. -/
def circle_circle_intersection_area (r1 r2 b : ℝ) : ℝ :=
  if r1 < b - r2 then 0
  else if r1 ≥ b + r2 then π * r2 ^ 2
  else if b - r2 ≤ -r1 then π * r1 ^ 2
  else
    r2 ^ 2 * arccos ((b ^ 2 + r2 ^ 2 - r1 ^ 2) / (2 * b * r2))
      + r1 ^ 2 * arccos ((b ^ 2 + r1 ^ 2 - r2 ^ 2) / (2 * b * r1))
      - 0.5 * Real.sqrt ((-b + r2 + r1) * (b + r2 - r1) * (b - r2 + r1) * (b + r2 + r1))

/-- Vectorized circle-circle intersection area, mirroring
`circle_circle_intersection_area_v(r1, r2, bs)`: the per-element body is
the same region policy applied to each separation. -/
def circle_circle_intersection_area_v (r1 r2 : ℝ) (bs : List ℝ) : List ℝ :=
  bs.map fun b =>
    if r1 < b - r2 then 0
    else if r1 ≥ b + r2 then π * r2 ^ 2
    else if b - r2 ≤ -r1 then π * r1 ^ 2
    else
      r2 ^ 2 * arccos ((b ^ 2 + r2 ^ 2 - r1 ^ 2) / (2 * b * r2))
        + r1 ^ 2 * arccos ((b ^ 2 + r1 ^ 2 - r2 ^ 2) / (2 * b * r1))
        - 0.5 * Real.sqrt ((-b + r2 + r1) * (b + r2 - r1) * (b - r2 + r1) * (b + r2 + r1))

/-- Element `ig` of the grazing grid `gs = linspace(0, 1 - 1e-7, ng)`
built by `calculate_weights_2d` and `calculate_weights_3d`. -/
def cw2d_gs (ng ig : ℕ) : ℝ := ig * ((1 - 1e-7) / ((ng : ℝ) - 1))

/-- The grazing step `dg = gs[1] - gs[0]` returned by `calculate_weights_2d`
and `calculate_weights_3d`. -/
def cw2d_dg (ng : ℕ) : ℝ := cw2d_gs ng 1 - cw2d_gs ng 0

/-- The successive-difference loop of `calculate_weights_2d`: given the
running cumulative area `a0`, produce `a1 - a0` for each remaining grid
edge, updating `a0` to `a1`. -/
def cciaDiffs (k b : ℝ) : ℝ → List ℝ → List ℝ
  | _, [] => []
  | a0, z :: zs =>
    (circle_circle_intersection_area z k b - a0)
      :: cciaDiffs k b (circle_circle_intersection_area z k b) zs

/-- The raw (un-normalized) weight row of `calculate_weights_2d` for one
grazing offset `b`: first entry is the cumulative area at the first edge,
the rest are successive differences across the edges. -/
def cw2dRowRaw (k b : ℝ) : List ℝ → List ℝ
  | [] => []
  | z0 :: zs =>
    circle_circle_intersection_area z0 k b
      :: cciaDiffs k b (circle_circle_intersection_area z0 k b) zs

/-- The in-place normalization step: each row entry is divided by the row
sum `s` accumulated during the difference loop. -/
def normalizeRow (l : List ℝ) : List ℝ := l.map (fun x => x / l.sum)

/-- Row `ig` of the weight table produced by `calculate_weights_2d(k, ze, ng)`,
with `b = gs[ig] * (1 + k)`. -/
def calculate_weights_2d_row (k : ℝ) (ze : List ℝ) (ng ig : ℕ) : List ℝ :=
  normalizeRow (cw2dRowRaw k (cw2d_gs ng ig * (1 + k)) ze)

/-- Element `ik` of the radius-ratio grid `ks = linspace(k0, k1, nk)` built
by `calculate_weights_3d`. -/
def cw3d_ks (k0 k1 : ℝ) (nk ik : ℕ) : ℝ := k0 + ik * ((k1 - k0) / ((nk : ℝ) - 1))

/-- Row `(ik, ig)` of the weight table produced by
`calculate_weights_3d(nk, k0, k1, ze, ng)`. -/
def calculate_weights_3d_row (k0 k1 : ℝ) (nk : ℕ) (ze : List ℝ) (ng ik ig : ℕ) : List ℝ :=
  normalizeRow
    (cw2dRowRaw (cw3d_ks k0 k1 nk ik) (cw2d_gs ng ig * (1 + cw3d_ks k0 k1 nk ik)) ze)

/-- The radius-ratio step `(k1 - k0)/nk` returned by `calculate_weights_3d`. -/
def calculate_weights_3d_dk (k0 k1 : ℝ) (nk : ℕ) : ℝ := (k1 - k0) / (nk : ℝ)

/-- Dot product of a weight row with a limb-darkening profile,
mirroring numpy `dot`. -/
def dotl (w ldp : List ℝ) : ℝ := (List.zipWith (fun a b => a * b) w ldp).sum

/-- The grazing index `ig = int(floor(g / dg))` computed by `lerp`,
`im_p_s`, `im_p_v` and `im_p_v2`. -/
def glerp_index (g dg : ℝ) : ℤ := ⌊g / dg⌋

/-- `lerp(g, dg, ldw)`: linear interpolation in the grazing dimension of a
pre-dotted weight table `ldw`, with the `g >= 1` short-circuit to 0. -/
def lerp (g dg : ℝ) (ldw : ℕ → ℝ) : ℝ :=
  if g ≥ 1 then 0
  else
    (1 - (g / dg - (glerp_index g dg : ℝ))) * ldw (glerp_index g dg).toNat
      + (g / dg - (glerp_index g dg : ℝ)) * ldw ((glerp_index g dg).toNat + 1)

/-- `im_p_s(g, dg, weights, ldp)`: the average blocked intensity, blending
the dot products of two adjacent weight rows with the profile. -/
def im_p_s (g dg : ℝ) (weights : ℕ → List ℝ) (ldp : List ℝ) : ℝ :=
  if g ≥ 1 then 0
  else
    (1 - (g / dg - (glerp_index g dg : ℝ))) * dotl (weights (glerp_index g dg).toNat) ldp
      + (g / dg - (glerp_index g dg : ℝ)) * dotl (weights ((glerp_index g dg).toNat + 1)) ldp

/-- `im_p_s_3d(k, g, dk, dg, weights, ldp, k0)`: the 3D-table interpolation.
The source computes the radius-ratio fractional index as `(k - k0) / dg`;
its `dk` argument is not used in the body. -/
def im_p_s_3d (k g dk dg : ℝ) (weights : ℕ → ℕ → List ℝ) (ldp : List ℝ) (k0 : ℝ) : ℝ :=
  if g ≥ 1 then 0
  else
    (dotl (weights (⌊(k - k0) / dg⌋).toNat (⌊g / dg⌋).toNat) ldp
        * (1 - ((k - k0) / dg - (⌊(k - k0) / dg⌋ : ℝ))) * (1 - (g / dg - (⌊g / dg⌋ : ℝ))))
      + (dotl (weights ((⌊(k - k0) / dg⌋).toNat + 1) (⌊g / dg⌋).toNat) ldp
        * ((k - k0) / dg - (⌊(k - k0) / dg⌋ : ℝ)) * (1 - (g / dg - (⌊g / dg⌋ : ℝ))))
      + (dotl (weights (⌊(k - k0) / dg⌋).toNat ((⌊g / dg⌋).toNat + 1)) ldp
        * (1 - ((k - k0) / dg - (⌊(k - k0) / dg⌋ : ℝ))) * (g / dg - (⌊g / dg⌋ : ℝ)))
      + (dotl (weights ((⌊(k - k0) / dg⌋).toNat + 1) ((⌊g / dg⌋).toNat + 1)) ldp
        * ((k - k0) / dg - (⌊(k - k0) / dg⌋ : ℝ)) * (g / dg - (⌊g / dg⌋ : ℝ)))

/-- `im_p_v(gs, dg, weights, ldp)`: per-element grazing interpolation of the
pre-dotted rows, the loop body being exactly `lerp`'s body. -/
def im_p_v (gs : List ℝ) (dg : ℝ) (weights : ℕ → List ℝ) (ldp : List ℝ) : List ℝ :=
  gs.map (fun g => lerp g dg (fun ig => dotl (weights ig) ldp))

/-- `im_p_v2(gs, dg, ldw)`: per-element grazing interpolation of an already
dotted table, the loop body being exactly `lerp`'s body. -/
def im_p_v2 (gs : List ℝ) (dg : ℝ) (ldw : ℕ → ℝ) : List ℝ :=
  gs.map (fun g => lerp g dg ldw)

/-- The upward linear search `while z > mz[i+1]: i += 1` of
`interpolate_limb_darkening_s`, with fuel. -/
def walk_up (mz : List ℝ) (z : ℝ) : ℕ → ℕ → ℕ
  | 0, i => i
  | f + 1, i => if z > mz.getD (i + 1) 0 then walk_up mz z f (i + 1) else i

/-- The downward linear search `while z < mz[i]: i -= 1` of
`interpolate_limb_darkening_s`, with fuel. -/
def walk_down (mz : List ℝ) (z : ℝ) : ℕ → ℕ → ℕ
  | 0, i => i
  | f + 1, i => if z < mz.getD i 0 then walk_down mz z f (i - 1) else i

/-- The bracketing index found by `interpolate_limb_darkening_s`: the walk
starts at the midpoint `mz.size // 2` and moves up or down. -/
def ilds_index (z : ℝ) (mz : List ℝ) : ℕ :=
  if z > mz.getD (mz.length / 2) 0 then walk_up mz z mz.length (mz.length / 2)
  else walk_down mz z mz.length (mz.length / 2)

/-- `interpolate_limb_darkening_s(z, mz, ldp)`: NaN (modelled as `none`)
for `z < 0`, the last profile value for `z` beyond the last node, and
otherwise linear interpolation at the bracketing index. -/
def interpolate_limb_darkening_s (z : ℝ) (mz ldp : List ℝ) : Option ℝ :=
  if z < 0 then none
  else if z > mz.getLastD 0 then some (ldp.getLastD 0)
  else
    some ((1 - (z - mz.getD (ilds_index z mz) 0)
            / (mz.getD (ilds_index z mz + 1) 0 - mz.getD (ilds_index z mz) 0))
          * ldp.getD (ilds_index z mz) 0
        + (z - mz.getD (ilds_index z mz) 0)
            / (mz.getD (ilds_index z mz + 1) 0 - mz.getD (ilds_index z mz) 0)
          * ldp.getD (ilds_index z mz + 1) 0)

/-- `interpolate_limb_darkening_v(zs, mz, ldp)`: the per-element loop whose
body is exactly the scalar interpolation. -/
def interpolate_limb_darkening_v (zs mz ldp : List ℝ) : List (Option ℝ) :=
  zs.map (fun z => interpolate_limb_darkening_s z mz ldp)

/-- The per-sample flux body shared by `_eval_s_serial` and
`_eval_s_parallel`, at a given projected separation `z`: 1 when
`z > 1 + k`, otherwise the blocked-intensity branch selected by
`k > splimit`, combined with the overlap area.  The small-planet branch
may produce NaN (`none`), which propagates. -/
def eval_s_core (z kv splimit dg istar : ℝ) (ldwrow : ℕ → ℝ) (zm ldp : List ℝ) : Option ℝ :=
  if z > 1 + kv then some 1
  else
    (if kv > splimit then some (lerp (z / (1 + kv)) dg ldwrow)
     else interpolate_limb_darkening_s z zm ldp).map
      (fun iplanet => (istar - iplanet * circle_circle_intersection_area 1 kv z) / istar)

/-- The supersampling offset `exptime * ((isample - 0.5)/nsamples - 0.5)`. -/
def sample_time_offset (exptime : ℝ) (nsamp isample : ℕ) : ℝ :=
  exptime * (((isample : ℝ) - 0.5) / (nsamp : ℝ) - 0.5)

/-- One supersample term of `_eval_s_serial`: the separation is obtained
from the (external) orbit-geometry function `zf` at the offset time. -/
def eval_s_sample (zf : ℝ → ℝ) (t : ℝ) (nsamp : ℕ) (exptime kv splimit dg istar : ℝ)
    (ldwrow : ℕ → ℝ) (zm ldp : List ℝ) (isample : ℕ) : Option ℝ :=
  eval_s_core (zf (t + sample_time_offset exptime nsamp isample)) kv splimit dg istar ldwrow zm ldp

/-- One output point of `_eval_s_serial`: the supersample contributions are
accumulated and divided by `nsamples`. -/
def eval_s_point (zf : ℝ → ℝ) (t : ℝ) (nsamp : ℕ) (exptime kv splimit dg istar : ℝ)
    (ldwrow : ℕ → ℝ) (zm ldp : List ℝ) : Option ℝ :=
  ((List.range nsamp).foldl
    (fun acc is =>
      Option.bind acc (fun a =>
        (eval_s_sample zf t nsamp exptime kv splimit dg istar ldwrow zm ldp (is + 1)).map
          (fun s => a + s)))
    (some 0)).map (fun s => s / (nsamp : ℝ))

/-- `_eval_s_serial`: the flux series, one entry per point, with the
per-point light-curve, passband and effective radius-ratio selection. -/
def eval_s_serial (zf : ℝ → ℝ) (ts : ℕ → ℝ) (npt : ℕ) (karr : ℕ → ℝ) (ksize : ℕ)
    (splimit dg : ℝ) (istar : ℕ → ℝ) (ldw : ℕ → ℕ → ℝ) (zm : List ℝ) (ldp : ℕ → List ℝ)
    (lcids pbids : ℕ → ℕ) (nsamples : ℕ → ℕ) (exptimes : ℕ → ℝ) : List (Option ℝ) :=
  (List.range npt).map (fun j =>
    eval_s_point zf (ts j) (nsamples (lcids j)) (exptimes (lcids j))
      (if ksize = 1 then karr 0 else karr (pbids (lcids j))) splimit dg
      (istar (pbids (lcids j))) (ldw (pbids (lcids j))) zm (ldp (pbids (lcids j))))

/-- `_eval_s_parallel`: identical body to `_eval_s_serial`, the loop over
points being a `prange` whose iterations are independent and each write
its own output cell. -/
def eval_s_parallel (zf : ℝ → ℝ) (ts : ℕ → ℝ) (npt : ℕ) (karr : ℕ → ℝ) (ksize : ℕ)
    (splimit dg : ℝ) (istar : ℕ → ℝ) (ldw : ℕ → ℕ → ℝ) (zm : List ℝ) (ldp : ℕ → List ℝ)
    (lcids pbids : ℕ → ℕ) (nsamples : ℕ → ℕ) (exptimes : ℕ → ℝ) : List (Option ℝ) :=
  (List.range npt).map (fun j =>
    eval_s_point zf (ts j) (nsamples (lcids j)) (exptimes (lcids j))
      (if ksize = 1 then karr 0 else karr (pbids (lcids j))) splimit dg
      (istar (pbids (lcids j))) (ldw (pbids (lcids j))) zm (ldp (pbids (lcids j))))

/-- `swmodel_direct_s_simple`: the whole-series branch on `k > splimit`
(taken once, from the single radius-ratio value), followed by the
elementwise flux combination with the overlap area. -/
def swmodel_direct_s_simple (zs : List ℝ) (k istar splimit : ℝ) (ze : List ℝ) (ng : ℕ)
    (ldp zm : List ℝ) : List (Option ℝ) :=
  List.zipWith (fun ip ap => Option.map (fun i => (istar - i * ap) / istar) ip)
    (if k > splimit then
      (im_p_v2 (zs.map (fun z => z / (1 + k))) (cw2d_dg ng)
        (fun ig => dotl (calculate_weights_2d_row k ze ng ig) ldp)).map some
     else interpolate_limb_darkening_v zs zm ldp)
    (circle_circle_intersection_area_v 1 k zs)

/-- `swmodel_z_direct_serial`: weights built on the fly, blocked intensity
via `im_p_v` at `z * (1/(1+k))`, flux combined elementwise. -/
def swmodel_z_direct_serial (zs : List ℝ) (k istar : ℝ) (ng : ℕ) (ldp ze : List ℝ) : List ℝ :=
  List.zipWith (fun ip ap => (istar - ip * ap) / istar)
    (im_p_v (zs.map (fun z => z * (1 / (1 + k)))) (cw2d_dg ng)
      (fun ig => calculate_weights_2d_row k ze ng ig) ldp)
    (circle_circle_intersection_area_v 1 k zs)

/-- `swmodel_z_direct_parallel`: the same computation with the point loop
as a `prange`, each iteration computing `lerp(z[i]/(1+k), dg, ldw)` and the
overlap area for its own point. -/
def swmodel_z_direct_parallel (zs : List ℝ) (k istar : ℝ) (ng : ℕ) (ldp ze : List ℝ) : List ℝ :=
  zs.map (fun z =>
    (istar - lerp (z / (1 + k)) (cw2d_dg ng)
        (fun ig => dotl (calculate_weights_2d_row k ze ng ig) ldp)
      * circle_circle_intersection_area 1 k z) / istar)

/-- One population member of the vectorized evaluators: the radius ratio,
scaled semi-major axis and inclination are NaN-able floats (`none` = NaN),
the remaining per-member inputs are plain reals. -/
structure PVMember where
  k : Option ℝ
  a : Option ℝ
  inc : Option ℝ
  t0 : ℝ
  p : ℝ
  e : ℝ
  w : ℝ
  ldp : ℕ → List ℝ
  istar : ℕ → ℝ

/-- The inner per-point supersampling loop shared by `swmodel_direct_v`
and `swmodel_interpolated_v`, for a member whose parameters are valid. -/
def swmodel_v_point_flux (zf : ℝ → ℝ → ℝ → ℝ → ℝ → ℝ → ℝ → ℝ) (pm : PVMember)
    (kv av iv : ℝ) (tj : ℝ) (nsamp : ℕ) (exptime dg istar : ℝ) (ldwrow : ℕ → ℝ) : ℝ :=
  ((List.range nsamp).foldl (fun acc is =>
    acc +
      (if zf (tj + sample_time_offset exptime nsamp (is + 1)) pm.t0 pm.p av iv pm.e pm.w
          > 1 + kv then 1
       else
        (istar
            - lerp (zf (tj + sample_time_offset exptime nsamp (is + 1)) pm.t0 pm.p av iv pm.e pm.w
                / (1 + kv)) dg ldwrow
              * circle_circle_intersection_area 1 kv
                (zf (tj + sample_time_offset exptime nsamp (is + 1)) pm.t0 pm.p av iv pm.e pm.w))
          / istar)) 0)
    / (nsamp : ℝ)

/-- Entry `(pm, j)` of `swmodel_direct_v`: `+∞` when the member's radius
ratio, semi-major axis or inclination is NaN, otherwise the supersampled
flux with weights built on the fly from the member's radius ratio. -/
def swmodel_direct_v_entry (zf : ℝ → ℝ → ℝ → ℝ → ℝ → ℝ → ℝ → ℝ) (pm : PVMember)
    (ze : List ℝ) (ng : ℕ) (t : ℕ → ℝ) (lcids pbids : ℕ → ℕ) (nsamples : ℕ → ℕ)
    (exptimes : ℕ → ℝ) (j : ℕ) : EReal :=
  match pm.k, pm.a, pm.inc with
  | some kv, some av, some iv =>
    ((swmodel_v_point_flux zf pm kv av iv (t j) (nsamples (lcids j)) (exptimes (lcids j))
        (cw2d_dg ng) (pm.istar (pbids (lcids j)))
        (fun ig => dotl (calculate_weights_2d_row kv ze ng ig) (pm.ldp (pbids (lcids j)))) : ℝ)
      : EReal)
  | _, _, _ => ⊤

/-- `swmodel_direct_v` as a population-indexed flux table: entry `(ipv, j)`
depends only on member `ipv`'s parameters. -/
def swmodel_direct_v (zf : ℝ → ℝ → ℝ → ℝ → ℝ → ℝ → ℝ → ℝ) (pop : ℕ → PVMember)
    (ze : List ℝ) (ng : ℕ) (t : ℕ → ℝ) (lcids pbids : ℕ → ℕ) (nsamples : ℕ → ℕ)
    (exptimes : ℕ → ℝ) (ipv j : ℕ) : EReal :=
  swmodel_direct_v_entry zf (pop ipv) ze ng t lcids pbids nsamples exptimes j

/-- Entry `(pm, j)` of `swmodel_interpolated_v`: `+∞` when the member's
radius ratio, semi-major axis or inclination is NaN, otherwise the
supersampled flux with the member's `ldw` interpolated from a precomputed
3D weight table. -/
def swmodel_interpolated_v_entry (zf : ℝ → ℝ → ℝ → ℝ → ℝ → ℝ → ℝ → ℝ) (pm : PVMember)
    (weights : ℕ → ℕ → List ℝ) (dk k0 dg : ℝ) (t : ℕ → ℝ) (lcids pbids : ℕ → ℕ)
    (nsamples : ℕ → ℕ) (exptimes : ℕ → ℝ) (j : ℕ) : EReal :=
  match pm.k, pm.a, pm.inc with
  | some kv, some av, some iv =>
    ((swmodel_v_point_flux zf pm kv av iv (t j) (nsamples (lcids j)) (exptimes (lcids j))
        dg (pm.istar (pbids (lcids j)))
        (fun ig =>
          (1 - ((kv - k0) / dk - (⌊(kv - k0) / dk⌋ : ℝ)))
              * dotl (weights (⌊(kv - k0) / dk⌋).toNat ig) (pm.ldp (pbids (lcids j)))
            + ((kv - k0) / dk - (⌊(kv - k0) / dk⌋ : ℝ))
              * dotl (weights ((⌊(kv - k0) / dk⌋).toNat + 1) ig) (pm.ldp (pbids (lcids j)))) : ℝ)
      : EReal)
  | _, _, _ => ⊤

/-- `swmodel_interpolated_v` as a population-indexed flux table. -/
def swmodel_interpolated_v (zf : ℝ → ℝ → ℝ → ℝ → ℝ → ℝ → ℝ → ℝ) (pop : ℕ → PVMember)
    (weights : ℕ → ℕ → List ℝ) (dk k0 dg : ℝ) (t : ℕ → ℝ) (lcids pbids : ℕ → ℕ)
    (nsamples : ℕ → ℕ) (exptimes : ℕ → ℝ) (ipv j : ℕ) : EReal :=
  swmodel_interpolated_v_entry zf (pop ipv) weights dk k0 dg t lcids pbids nsamples exptimes j

/-- `lnlike_normal_v(o, m, e, wnids, lcids)[i]`: the accumulation loop over
all flat points, the per-point noise scale selected through the noise-block
id of the point's light curve. -/
def lnlike_normal_v (o : ℕ → ℝ) (npt : ℕ) (m : ℕ → ℕ → ℝ) (e : ℕ → ℕ → ℝ)
    (wnids lcids : ℕ → ℕ) (i : ℕ) : ℝ :=
  (List.range npt).foldl (fun lnl j =>
    lnl + (-Real.log (e i (wnids (lcids j))) - 0.5 * Real.log (2 * π)
      - 0.5 * ((o j - m i j) / e i (wnids (lcids j))) ^ 2)) 0

/-- `BaseLPF.lnlikelihood(pv)[i]`: the noise scales are
`10 ** pv[:, sl_err]` and the likelihood is `lnlike_normal_v` against the
flat observed fluxes and the model fluxes. -/
def lnlikelihood (ofluxa : ℕ → ℝ) (npt : ℕ) (flux_model : ℕ → ℕ → ℝ) (pv : ℕ → ℕ → ℝ)
    (sl_err : ℕ → ℕ) (noise_ids lcids : ℕ → ℕ) (i : ℕ) : ℝ :=
  lnlike_normal_v ofluxa npt flux_model (fun ipv kb => (10 : ℝ) ^ pv ipv (sl_err kb))
    noise_ids lcids i

end

/-! Helper lemmas. -/

/-- At exact touching separation `b = r1 + r2` the lens formula evaluates
to exactly zero: both arccos arguments are exactly 1 and the root term
vanishes. -/
theorem ccia_at_touch (r1 r2 : ℝ) (h1 : 0 < r1) (h2 : 0 < r2) :
    circle_circle_intersection_area r1 r2 (r1 + r2) = 0 := by
  have g1 : ¬ (r1 < (r1 + r2) - r2) := by
    push_neg
    linarith
  have g2 : ¬ (r1 ≥ (r1 + r2) + r2) := by
    push_neg
    linarith
  have g3 : ¬ ((r1 + r2) - r2 ≤ -r1) := by
    push_neg
    linarith
  unfold circle_circle_intersection_area
  rw [if_neg g1, if_neg g2, if_neg g3]
  have hd1 : (0:ℝ) < 2 * (r1 + r2) * r2 := by positivity
  have hd2 : (0:ℝ) < 2 * (r1 + r2) * r1 := by positivity
  have e1 : ((r1 + r2) ^ 2 + r2 ^ 2 - r1 ^ 2) / (2 * (r1 + r2) * r2) = 1 := by
    rw [div_eq_one_iff_eq (ne_of_gt hd1)]
    ring
  have e2 : ((r1 + r2) ^ 2 + r1 ^ 2 - r2 ^ 2) / (2 * (r1 + r2) * r1) = 1 := by
    rw [div_eq_one_iff_eq (ne_of_gt hd2)]
    ring
  have e3 : (-(r1 + r2) + r2 + r1) * ((r1 + r2) + r2 - r1) * ((r1 + r2) - r2 + r1)
      * ((r1 + r2) + r2 + r1) = 0 := by ring
  rw [e1, e2, Real.arccos_one, e3, Real.sqrt_zero]
  ring

/-- A left fold of additions over `range n` is the corresponding finite
sum. -/
theorem foldl_add_range (f : ℕ → ℝ) (n : ℕ) (c : ℝ) :
    (List.range n).foldl (fun a j => a + f j) c = c + ∑ j in Finset.range n, f j := by
  induction n generalizing c with
  | zero => simp
  | succ n ih =>
    rw [List.range_succ, List.foldl_append, ih, Finset.sum_range_succ]
    simp
    ring

/-- Zipping two maps over the same list is a single map. -/
theorem zipWith_map_map {α β γ δ : Type} (f : α → β) (g : α → γ) (h : β → γ → δ)
    (l : List α) :
    List.zipWith h (l.map f) (l.map g) = l.map (fun x => h (f x) (g x)) := by
  induction l with
  | nil => rfl
  | cons a l ih => simp [ih]

/-- The vectorized intersection area is the elementwise scalar area. -/
theorem ccia_v_map (r1 r2 : ℝ) (bs : List ℝ) :
    circle_circle_intersection_area_v r1 r2 bs =
      bs.map (circle_circle_intersection_area r1 r2) := rfl

/-! Claim theorems. -/

/-- C1: `circle_circle_intersection_area(r1, r2, b)`, for radii
`r1, r2 > 0` and separation `b ≥ 0`, follows the region policy: 0 whenever
`b ≥ r1 + r2` (exactly 0 at `b = r1 + r2` as well), `π r2²` whenever
`r1 ≥ b + r2`, `π r1²` whenever `b - r2 ≤ -r1`, the closed-form two-arccos
lens formula otherwise, `π min(r1,r2)²` at `b = 0`, and the vectorized
variant applies the identical policy per element. -/
theorem circle_circle_intersection_area_region_policy
    (r1 r2 b : ℝ) (hr1 : 0 < r1) (hr2 : 0 < r2) (hb : 0 ≤ b) :
    (b ≥ r1 + r2 → circle_circle_intersection_area r1 r2 b = 0)
    ∧ (r1 ≥ b + r2 → circle_circle_intersection_area r1 r2 b = π * r2 ^ 2)
    ∧ (b - r2 ≤ -r1 → circle_circle_intersection_area r1 r2 b = π * r1 ^ 2)
    ∧ (¬ b ≥ r1 + r2 → ¬ r1 ≥ b + r2 → ¬ b - r2 ≤ -r1 →
        circle_circle_intersection_area r1 r2 b =
          r2 ^ 2 * Real.arccos ((b ^ 2 + r2 ^ 2 - r1 ^ 2) / (2 * b * r2))
            + r1 ^ 2 * Real.arccos ((b ^ 2 + r1 ^ 2 - r2 ^ 2) / (2 * b * r1))
            - 0.5 * Real.sqrt ((-b + r2 + r1) * (b + r2 - r1) * (b - r2 + r1) * (b + r2 + r1)))
    ∧ (b = 0 → circle_circle_intersection_area r1 r2 b = π * min r1 r2 ^ 2)
    ∧ ∀ bs : List ℝ, circle_circle_intersection_area_v r1 r2 bs =
        bs.map (circle_circle_intersection_area r1 r2) := by
  refine ⟨?_, ?_, ?_, ?_, ?_, fun bs => rfl⟩
  · intro hge
    rcases eq_or_lt_of_le hge with heq | hlt
    · rw [← heq]
      exact ccia_at_touch r1 r2 hr1 hr2
    · unfold circle_circle_intersection_area
      rw [if_pos (by linarith : r1 < b - r2)]
  · intro h
    unfold circle_circle_intersection_area
    rw [if_neg (by push_neg; linarith : ¬ r1 < b - r2), if_pos h]
  · intro h3
    unfold circle_circle_intersection_area
    rw [if_neg (by push_neg; linarith : ¬ r1 < b - r2)]
    by_cases hg2 : r1 ≥ b + r2
    · rw [if_pos hg2]
      have hb0 : b = 0 := by linarith
      have hrr : r1 = r2 := by
        rw [hb0] at h3 hg2
        linarith
      rw [hrr]
    · rw [if_neg hg2, if_pos h3]
  · intro hn1 hn2 hn3
    push_neg at hn1
    unfold circle_circle_intersection_area
    rw [if_neg (by push_neg; linarith : ¬ r1 < b - r2), if_neg hn2, if_neg hn3]
  · intro h0
    subst h0
    unfold circle_circle_intersection_area
    rw [if_neg (by push_neg; linarith : ¬ r1 < 0 - r2)]
    by_cases hg2 : r1 ≥ 0 + r2
    · rw [if_pos hg2, min_eq_right (by linarith : r2 ≤ r1)]
    · push_neg at hg2
      rw [if_neg (by push_neg; linarith : ¬ r1 ≥ 0 + r2),
        if_pos (by linarith : (0:ℝ) - r2 ≤ -r1), min_eq_left (by linarith : r1 ≤ r2)]

/-- Witness for C1 at concrete inputs: non-overlap at `b = r1 + r2 = 2`
gives exactly 0, and full containment at `b = 0` gives the planet disk
area. -/
theorem circle_circle_intersection_area_region_policy_witness :
    circle_circle_intersection_area 1 1 2 = 0
    ∧ circle_circle_intersection_area 2 1 0 = π * 1 ^ 2 :=
  ⟨(circle_circle_intersection_area_region_policy 1 1 2 (by norm_num) (by norm_num)
      (by norm_num)).1 (by norm_num),
   (circle_circle_intersection_area_region_policy 2 1 0 (by norm_num) (by norm_num)
      (by norm_num)).2.1 (by norm_num)⟩

/-- C3: for every population member i, `lnlikelihood` (via
`lnlike_normal_v`) returns the closed-form Gaussian log-likelihood summed
over all flat data points, with the per-point noise scale
`10^(pv_i at the log-error slice)` selected by the point's noise-block id
`noise_ids[lcids[j]]`. -/
theorem lnlikelihood_closed_form (ofluxa : ℕ → ℝ) (npt : ℕ) (flux_model pv : ℕ → ℕ → ℝ)
    (sl_err noise_ids lcids : ℕ → ℕ) (i : ℕ) :
    lnlikelihood ofluxa npt flux_model pv sl_err noise_ids lcids i =
      ∑ j in Finset.range npt,
        (-Real.log ((10 : ℝ) ^ pv i (sl_err (noise_ids (lcids j))))
          - 0.5 * Real.log (2 * π)
          - 0.5 * ((ofluxa j - flux_model i j)
              / (10 : ℝ) ^ pv i (sl_err (noise_ids (lcids j)))) ^ 2) := by
  unfold lnlikelihood lnlike_normal_v
  rw [foldl_add_range]
  simp

/-- C9: the serial and parallel variants compute the same numerical result
in exact arithmetic: `swmodel_z_direct_serial` and
`swmodel_z_direct_parallel` return equal flux lists, and `_eval_s_serial`
and `_eval_s_parallel` are the same per-point function. -/
theorem serial_parallel_same_result (zs : List ℝ) (k istar : ℝ) (ng : ℕ) (ldp ze : List ℝ)
    (zf : ℝ → ℝ) (ts : ℕ → ℝ) (npt : ℕ) (karr : ℕ → ℝ) (ksize : ℕ) (splimit dg : ℝ)
    (istarf : ℕ → ℝ) (ldw : ℕ → ℕ → ℝ) (zm : List ℝ) (ldpf : ℕ → List ℝ)
    (lcids pbids : ℕ → ℕ) (nsamples : ℕ → ℕ) (exptimes : ℕ → ℝ) :
    swmodel_z_direct_serial zs k istar ng ldp ze =
      swmodel_z_direct_parallel zs k istar ng ldp ze
    ∧ eval_s_serial zf ts npt karr ksize splimit dg istarf ldw zm ldpf lcids pbids
        nsamples exptimes
      = eval_s_parallel zf ts npt karr ksize splimit dg istarf ldw zm ldpf lcids pbids
        nsamples exptimes := by
  constructor
  · unfold swmodel_z_direct_serial swmodel_z_direct_parallel im_p_v
    rw [ccia_v_map, List.map_map, zipWith_map_map]
    simp only [Function.comp, mul_one_div]
  · rfl

/-- C10 (amended): for every grazing value g with 0 ≤ g < 1 - 1e-7 and the
grazing step dg = (1 - 1e-7)/(ng - 1) of an ng-row table (ng ≥ 2), the
indices ig = floor(g/dg) and ig + 1 read by `lerp` and `im_p_s` lie within
the table bounds: 0 ≤ ig and ig + 1 ≤ ng - 1.  (For g in [1 - 1e-7, 1) the
second index reaches ng and reads past the last weight row.) -/
theorem glerp_index_in_bounds (g : ℝ) (ng : ℕ) (hng : 2 ≤ ng) (hg0 : 0 ≤ g)
    (hg1 : g < 1 - 1e-7) :
    0 ≤ glerp_index g (cw2d_dg ng) ∧ glerp_index g (cw2d_dg ng) + 1 ≤ (ng : ℤ) - 1 := by
  have hngR : (2 : ℝ) ≤ (ng : ℝ) := by exact_mod_cast hng
  have hden : (0 : ℝ) < (ng : ℝ) - 1 := by linarith
  have hdg : cw2d_dg ng = (1 - 1e-7) / ((ng : ℝ) - 1) := by
    unfold cw2d_dg cw2d_gs
    push_cast
    ring
  have hdgpos : 0 < cw2d_dg ng := by
    rw [hdg]
    positivity
  constructor
  · exact Int.floor_nonneg.mpr (div_nonneg hg0 hdgpos.le)
  · have hlt : g / cw2d_dg ng < ((ng : ℤ) - 1 : ℤ) := by
      push_cast
      rw [div_lt_iff₀ hdgpos, hdg]
      rw [mul_div_cancel₀ _ (ne_of_gt hden)]
      exact hg1
    have := Int.floor_lt.mpr hlt
    unfold glerp_index
    omega

/-- Witness for C10's amended bound at g = 1/2 on a 2-row table. -/
theorem glerp_index_in_bounds_witness :
    0 ≤ glerp_index (1/2) (cw2d_dg 2) ∧ glerp_index (1/2) (cw2d_dg 2) + 1 ≤ (2 : ℤ) - 1 :=
  glerp_index_in_bounds (1/2) 2 (by norm_num) (by norm_num) (by norm_num)

/-- C10 counterexample: the claim's domain `0 ≤ g < 1` is too large.  At
ng = 2 and g = 1 - 1e-7 (a grazing value below 1), the index pair read by
`lerp` is (1, 2), and 2 exceeds the last row index ng - 1 = 1. -/
theorem glerp_index_out_of_bounds_at_edge :
    0 ≤ (1 - 1e-7 : ℝ) ∧ (1 - 1e-7 : ℝ) < 1
    ∧ ¬ (glerp_index (1 - 1e-7) (cw2d_dg 2) + 1 ≤ (2 : ℤ) - 1) := by
  refine ⟨by norm_num, by norm_num, ?_⟩
  have hdg : cw2d_dg 2 = 1 - 1e-7 := by
    unfold cw2d_dg cw2d_gs
    norm_num
  rw [hdg]
  unfold glerp_index
  rw [div_self (by norm_num : (1 - 1e-7 : ℝ) ≠ 0)]
  norm_num

/-- An option-valued fold whose every step adds `some 1` accumulates the
list length. -/
theorem foldl_bind_all_some_one (s : ℕ → Option ℝ) (l : List ℕ) (c : ℝ)
    (h : ∀ x ∈ l, s x = some 1) :
    l.foldl (fun acc is => Option.bind acc (fun a => (s is).map (fun v => a + v))) (some c)
      = some (c + l.length) := by
  induction l generalizing c with
  | nil => simp
  | cons x l ih =>
    have hx := h x (List.mem_cons_self x l)
    simp only [List.foldl_cons, hx, Option.some_bind, Option.map_some']
    rw [ih (c + 1) (fun y hy => h y (List.mem_cons_of_mem x hy))]
    congr 1
    simp only [List.length_cons]
    push_cast
    ring

/-- When every supersample separation exceeds `1 + k`, one `_eval_s` output
point is exactly 1. -/
theorem eval_s_point_one (zf : ℝ → ℝ) (t : ℝ) (nsamp : ℕ) (exptime kv splimit dg istar : ℝ)
    (ldwrow : ℕ → ℝ) (zm ldp : List ℝ) (h1 : 1 ≤ nsamp)
    (h2 : ∀ is < nsamp, zf (t + sample_time_offset exptime nsamp (is + 1)) > 1 + kv) :
    eval_s_point zf t nsamp exptime kv splimit dg istar ldwrow zm ldp = some 1 := by
  have hs : ∀ x ∈ List.range nsamp,
      eval_s_sample zf t nsamp exptime kv splimit dg istar ldwrow zm ldp (x + 1) = some 1 := by
    intro x hx
    unfold eval_s_sample eval_s_core
    rw [if_pos (h2 x (List.mem_range.mp hx))]
  unfold eval_s_point
  rw [foldl_bind_all_some_one
    (fun is => eval_s_sample zf t nsamp exptime kv splimit dg istar ldwrow zm ldp (is + 1))
    (List.range nsamp) 0 hs]
  simp only [Option.map_some', List.length_range]
  congr 1
  rw [zero_add, div_self]
  exact Nat.cast_ne_zero.mpr (by omega)

/-- When every supersample separation exceeds `1 + k`, one population
point flux is exactly 1. -/
theorem swmodel_v_point_flux_one (zf : ℝ → ℝ → ℝ → ℝ → ℝ → ℝ → ℝ → ℝ) (pm : PVMember)
    (kv av iv tj : ℝ) (nsamp : ℕ) (exptime dg istar : ℝ) (ldwrow : ℕ → ℝ)
    (h1 : 1 ≤ nsamp)
    (h2 : ∀ is < nsamp,
      zf (tj + sample_time_offset exptime nsamp (is + 1)) pm.t0 pm.p av iv pm.e pm.w
        > 1 + kv) :
    swmodel_v_point_flux zf pm kv av iv tj nsamp exptime dg istar ldwrow = 1 := by
  unfold swmodel_v_point_flux
  rw [foldl_add_range]
  have hsum : ∑ j in Finset.range nsamp,
      (if zf (tj + sample_time_offset exptime nsamp (j + 1)) pm.t0 pm.p av iv pm.e pm.w
          > 1 + kv then (1:ℝ)
       else (istar - lerp (zf (tj + sample_time_offset exptime nsamp (j + 1))
              pm.t0 pm.p av iv pm.e pm.w / (1 + kv)) dg ldwrow
            * circle_circle_intersection_area 1 kv
              (zf (tj + sample_time_offset exptime nsamp (j + 1)) pm.t0 pm.p av iv pm.e pm.w))
          / istar) = (nsamp : ℝ) := by
    rw [Finset.sum_congr rfl (fun j hj => if_pos (h2 j (Finset.mem_range.mp hj)))]
    rw [Finset.sum_const, Finset.card_range, nsmul_eq_mul, mul_one]
  rw [hsum, zero_add, div_self]
  exact Nat.cast_ne_zero.mpr (by omega)

/-- C4: in the serial, parallel and population evaluators, a point whose
projected separation exceeds `1 + k` at every supersample has flux exactly
1, and if this holds at every point the whole series is identically 1; the
interpolation and overlap-area computation are skipped for such samples. -/
theorem flux_one_when_no_overlap
    (zf : ℝ → ℝ) (ts : ℕ → ℝ) (npt : ℕ) (karr : ℕ → ℝ) (ksize : ℕ)
    (splimit dg : ℝ) (istarf : ℕ → ℝ) (ldw : ℕ → ℕ → ℝ) (zm : List ℝ) (ldpf : ℕ → List ℝ)
    (lcids pbids : ℕ → ℕ) (nsamples : ℕ → ℕ) (exptimes : ℕ → ℝ)
    (zfv : ℝ → ℝ → ℝ → ℝ → ℝ → ℝ → ℝ → ℝ) (pm : PVMember) (kvv avv ivv : ℝ)
    (ze : List ℝ) (ng : ℕ) (j : ℕ) :
    (∀ t : ℝ, ∀ nsamp : ℕ, ∀ exptime kv istar : ℝ, ∀ ldwrow : ℕ → ℝ, ∀ ldp : List ℝ,
      1 ≤ nsamp →
      (∀ is < nsamp, zf (t + sample_time_offset exptime nsamp (is + 1)) > 1 + kv) →
      eval_s_point zf t nsamp exptime kv splimit dg istar ldwrow zm ldp = some 1)
    ∧ ((∀ i < npt, 1 ≤ nsamples (lcids i)
          ∧ ∀ is < nsamples (lcids i),
            zf (ts i + sample_time_offset (exptimes (lcids i)) (nsamples (lcids i)) (is + 1))
              > 1 + (if ksize = 1 then karr 0 else karr (pbids (lcids i)))) →
        eval_s_serial zf ts npt karr ksize splimit dg istarf ldw zm ldpf lcids pbids
            nsamples exptimes = List.replicate npt (some 1)
          ∧ eval_s_parallel zf ts npt karr ksize splimit dg istarf ldw zm ldpf lcids pbids
            nsamples exptimes = List.replicate npt (some 1))
    ∧ (pm.k = some kvv → pm.a = some avv → pm.inc = some ivv →
        1 ≤ nsamples (lcids j) →
        (∀ is < nsamples (lcids j),
          zfv (ts j + sample_time_offset (exptimes (lcids j)) (nsamples (lcids j)) (is + 1))
              pm.t0 pm.p avv ivv pm.e pm.w > 1 + kvv) →
        swmodel_direct_v_entry zfv pm ze ng ts lcids pbids nsamples exptimes j
          = ((1 : ℝ) : EReal)) := by
  refine ⟨?_, ?_, ?_⟩
  · intro t nsamp exptime kv istar ldwrow ldp h1 h2
    exact eval_s_point_one zf t nsamp exptime kv splimit dg istar ldwrow zm ldp h1 h2
  · intro h
    have hmap : ∀ fl : List (Option ℝ),
        fl = (List.range npt).map (fun i =>
          eval_s_point zf (ts i) (nsamples (lcids i)) (exptimes (lcids i))
            (if ksize = 1 then karr 0 else karr (pbids (lcids i))) splimit dg
            (istarf (pbids (lcids i))) (ldw (pbids (lcids i))) zm (ldpf (pbids (lcids i)))) →
        fl = List.replicate npt (some 1) := by
      intro fl hfl
      rw [hfl, List.map_congr_left (fun i hi =>
        eval_s_point_one zf (ts i) (nsamples (lcids i)) (exptimes (lcids i)) _ splimit dg
          _ _ zm _ (h i (List.mem_range.mp hi)).1 (h i (List.mem_range.mp hi)).2)]
      rw [List.map_const', List.length_range]
    exact ⟨hmap _ rfl, hmap _ rfl⟩
  · intro hk ha hi h1 h2
    unfold swmodel_direct_v_entry
    rw [hk, ha, hi]
    show ((swmodel_v_point_flux zfv pm kvv avv ivv (ts j) (nsamples (lcids j))
        (exptimes (lcids j)) (cw2d_dg ng) (pm.istar (pbids (lcids j)))
        (fun ig => dotl (calculate_weights_2d_row kvv ze ng ig)
          (pm.ldp (pbids (lcids j)))) : ℝ) : EReal) = ((1 : ℝ) : EReal)
    rw [swmodel_v_point_flux_one zfv pm kvv avv ivv (ts j) (nsamples (lcids j))
      (exptimes (lcids j)) (cw2d_dg ng) (pm.istar (pbids (lcids j))) _ h1 h2]

/-- Witness for C4 at a constant external separation z = 3 with k = 1:
every flux output is 1. -/
theorem flux_one_when_no_overlap_witness :
    eval_s_point (fun _ => 3) 0 1 0 1 0 1 1 (fun _ => 0) [] [] = some 1 :=
  (flux_one_when_no_overlap (fun _ => 3) (fun _ => 0) 0 (fun _ => 1) 1 0 1
      (fun _ => 1) (fun _ _ => 0) [] (fun _ => []) (fun _ => 0) (fun _ => 0)
      (fun _ => 1) (fun _ => 0) (fun _ _ _ _ _ _ _ => 0)
      ⟨some 1, some 1, some 1, 0, 0, 0, 0, fun _ => [], fun _ => 1⟩ 1 1 1 [] 2 0).1
    0 1 0 1 1 (fun _ => 0) [] (by norm_num) (fun is _ => by norm_num)

/-- C5: branch selection is made per radius-ratio value: in the `_eval_s`
sample body, when the effective radius ratio exceeds `splimit` the blocked
intensity is the weight-table interpolation at the grazing parameter
`g = z/(1+k)`, and otherwise the direct limb-darkening interpolation at z;
`swmodel_direct_s_simple` applies one and the same condition to every
point of the series. -/
theorem branch_selection_per_radius_ratio (z kv splimit dg istar : ℝ) (ldwrow : ℕ → ℝ)
    (zm ldp : List ℝ) (zs ze : List ℝ) (k istars : ℝ) (ng : ℕ) (ldps zms : List ℝ) :
    (¬ z > 1 + kv → kv > splimit →
      eval_s_core z kv splimit dg istar ldwrow zm ldp =
        some ((istar - lerp (z / (1 + kv)) dg ldwrow
          * circle_circle_intersection_area 1 kv z) / istar))
    ∧ (¬ z > 1 + kv → ¬ kv > splimit →
      eval_s_core z kv splimit dg istar ldwrow zm ldp =
        (interpolate_limb_darkening_s z zm ldp).map
          (fun ip => (istar - ip * circle_circle_intersection_area 1 kv z) / istar))
    ∧ (k > splimit →
      swmodel_direct_s_simple zs k istars splimit ze ng ldps zms =
        zs.map (fun z => some ((istars
          - lerp (z / (1 + k)) (cw2d_dg ng)
              (fun ig => dotl (calculate_weights_2d_row k ze ng ig) ldps)
            * circle_circle_intersection_area 1 k z) / istars)))
    ∧ (¬ k > splimit →
      swmodel_direct_s_simple zs k istars splimit ze ng ldps zms =
        zs.map (fun z => (interpolate_limb_darkening_s z zms ldps).map
          (fun ip => (istars - ip * circle_circle_intersection_area 1 k z) / istars))) := by
  refine ⟨?_, ?_, ?_, ?_⟩
  · intro h1 h2
    unfold eval_s_core
    rw [if_neg h1, if_pos h2, Option.map_some']
  · intro h1 h2
    unfold eval_s_core
    rw [if_neg h1, if_neg h2]
  · intro h
    unfold swmodel_direct_s_simple im_p_v2
    rw [if_pos h, ccia_v_map, List.map_map, List.map_map, zipWith_map_map]
    simp [Function.comp]
  · intro h
    unfold swmodel_direct_s_simple interpolate_limb_darkening_v
    rw [if_neg h, ccia_v_map, zipWith_map_map]

/-- Witness for C5 at z = 0, k = 1, splimit = 0: the geometric branch is
chosen. -/
theorem branch_selection_per_radius_ratio_witness :
    eval_s_core 0 1 0 1 1 (fun _ => 0) [] [] =
      some ((1 - lerp (0 / (1 + 1)) 1 (fun _ => 0)
        * circle_circle_intersection_area 1 1 0) / 1) :=
  (branch_selection_per_radius_ratio 0 1 0 1 1 (fun _ => 0) [] [] [] [] 0 0 0 [] []).1
    (by norm_num) (by norm_num)

/-- C6: in the population evaluators, a member whose radius ratio,
semi-major axis or inclination is NaN has every flux entry equal to +∞
(no exception is raised), and every member's entries depend only on that
member's own parameters, so an invalid member cannot corrupt the others. -/
theorem nan_member_flagged_infinite
    (zf : ℝ → ℝ → ℝ → ℝ → ℝ → ℝ → ℝ → ℝ) (ze : List ℝ) (ng : ℕ)
    (weights : ℕ → ℕ → List ℝ) (dk k0 dg : ℝ) (t : ℕ → ℝ) (lcids pbids : ℕ → ℕ)
    (nsamples : ℕ → ℕ) (exptimes : ℕ → ℝ) :
    (∀ pop : ℕ → PVMember, ∀ ipv,
      ((pop ipv).k = none ∨ (pop ipv).a = none ∨ (pop ipv).inc = none) →
      ∀ j, swmodel_direct_v zf pop ze ng t lcids pbids nsamples exptimes ipv j = ⊤
        ∧ swmodel_interpolated_v zf pop weights dk k0 dg t lcids pbids nsamples exptimes
            ipv j = ⊤)
    ∧ (∀ pop pop2 : ℕ → PVMember, ∀ ipv, pop ipv = pop2 ipv →
      ∀ j, swmodel_direct_v zf pop ze ng t lcids pbids nsamples exptimes ipv j =
            swmodel_direct_v zf pop2 ze ng t lcids pbids nsamples exptimes ipv j
        ∧ swmodel_interpolated_v zf pop weights dk k0 dg t lcids pbids nsamples exptimes
              ipv j =
            swmodel_interpolated_v zf pop2 weights dk k0 dg t lcids pbids nsamples exptimes
              ipv j) := by
  constructor
  · intro pop ipv h j
    rcases hk : (pop ipv).k with _ | kv <;>
      rcases ha : (pop ipv).a with _ | av <;>
        rcases hi : (pop ipv).inc with _ | iv <;>
          constructor <;>
            simp_all [swmodel_direct_v, swmodel_direct_v_entry,
              swmodel_interpolated_v, swmodel_interpolated_v_entry]
  · intro pop pop2 ipv heq j
    constructor
    · unfold swmodel_direct_v
      rw [heq]
    · unfold swmodel_interpolated_v
      rw [heq]

/-- Witness for C6: a member with NaN radius ratio has +∞ flux. -/
theorem nan_member_flagged_infinite_witness :
    swmodel_direct_v (fun _ _ _ _ _ _ _ => 0)
      (fun _ => ⟨none, some 1, some 1, 0, 0, 0, 0, fun _ => [], fun _ => 1⟩)
      [] 2 (fun _ => 0) (fun _ => 0) (fun _ => 0) (fun _ => 1) (fun _ => 0) 0 0 = ⊤ :=
  ((nan_member_flagged_infinite (fun _ _ _ _ _ _ _ => 0) [] 2 (fun _ _ => [])
      1 0 1 (fun _ => 0) (fun _ => 0) (fun _ => 0) (fun _ => 1) (fun _ => 0)).1
    (fun _ => ⟨none, some 1, some 1, 0, 0, 0, 0, fun _ => [], fun _ => 1⟩) 0
    (Or.inl rfl) 0).1

/-- On `(0, π]` the product `sin x * cos x` is strictly below `x`. -/
theorem sin_mul_cos_lt (x : ℝ) (h0 : 0 < x) (hpi : x ≤ π) : Real.sin x * Real.cos x < x := by
  have hs : 0 ≤ Real.sin x := Real.sin_nonneg_of_nonneg_of_le_pi h0.le hpi
  rcases le_or_lt (Real.cos x) 0 with hc | hc
  · nlinarith
  · have h1 : Real.cos x ≤ 1 := Real.cos_le_one x
    have h2 : Real.sin x < x := Real.sin_lt h0
    nlinarith

/-- In the open lens region `1 - k < b < 1 + k` (with `0 < k < 1`), the
closed-form two-arccos intersection-area expression for unit star radius
is strictly positive: it is the sum of two positive circular-segment
areas. -/
theorem lens_formula_pos (k b : ℝ) (hk0 : 0 < k) (hk1 : k < 1) (hb1 : 1 - k < b)
    (hb2 : b < 1 + k) :
    0 < k ^ 2 * Real.arccos ((b ^ 2 + k ^ 2 - 1 ^ 2) / (2 * b * k))
      + 1 ^ 2 * Real.arccos ((b ^ 2 + 1 ^ 2 - k ^ 2) / (2 * b * 1))
      - 0.5 * Real.sqrt ((-b + k + 1) * (b + k - 1) * (b - k + 1) * (b + k + 1)) := by
  have hb0 : 0 < b := by linarith
  have hbne : b ≠ 0 := ne_of_gt hb0
  have hkne : k ≠ 0 := ne_of_gt hk0
  have hden1 : (0:ℝ) < 2 * b * k := by positivity
  have hden2 : (0:ℝ) < 2 * b * 1 := by positivity
  have f1 : (0:ℝ) < -b + k + 1 := by linarith
  have f2 : (0:ℝ) < b + k - 1 := by linarith
  have f3 : (0:ℝ) < b - k + 1 := by linarith
  have f4 : (0:ℝ) < b + k + 1 := by linarith
  set u := (b ^ 2 + k ^ 2 - 1 ^ 2) / (2 * b * k) with hu
  set v := (b ^ 2 + 1 ^ 2 - k ^ 2) / (2 * b * 1) with hv
  have hu1 : u < 1 := by
    rw [hu, div_lt_one hden1]
    nlinarith [mul_pos f1 f3]
  have hu2 : -1 < u := by
    rw [hu, lt_div_iff₀ hden1]
    nlinarith [mul_pos f2 f4]
  have hv1 : v < 1 := by
    rw [hv, div_lt_one hden2]
    nlinarith [mul_pos f1 f2]
  have hv2 : -1 < v := by
    rw [hv, lt_div_iff₀ hden2]
    nlinarith [mul_pos f3 f4]
  set P := (-b + k + 1) * (b + k - 1) * (b - k + 1) * (b + k + 1) with hP
  have hPpos : 0 < P := by
    rw [hP]
    exact mul_pos (mul_pos (mul_pos f1 f2) f3) f4
  have hvP : 1 - v ^ 2 = P / (2 * b) ^ 2 := by
    rw [hv, hP]
    field_simp
    ring
  have huP : 1 - u ^ 2 = P / (2 * b * k) ^ 2 := by
    rw [hu, hP]
    field_simp
    ring
  have hsinv : Real.sin (Real.arccos v) = Real.sqrt P / (2 * b) := by
    rw [Real.sin_arccos, hvP, Real.sqrt_div hPpos.le, Real.sqrt_sq (by positivity : (0:ℝ) ≤ 2 * b)]
  have hsinu : Real.sin (Real.arccos u) = Real.sqrt P / (2 * b * k) := by
    rw [Real.sin_arccos, huP, Real.sqrt_div hPpos.le,
      Real.sqrt_sq (by positivity : (0:ℝ) ≤ 2 * b * k)]
  have hcosv : Real.cos (Real.arccos v) = v := Real.cos_arccos hv2.le hv1.le
  have hcosu : Real.cos (Real.arccos u) = u := Real.cos_arccos hu2.le hu1.le
  have key : 0.5 * Real.sqrt P =
      k ^ 2 * (Real.sin (Real.arccos u) * Real.cos (Real.arccos u))
        + 1 ^ 2 * (Real.sin (Real.arccos v) * Real.cos (Real.arccos v)) := by
    rw [hsinu, hcosu, hsinv, hcosv, hu, hv]
    field_simp
    ring
  have harcu : 0 < Real.arccos u := Real.arccos_pos.mpr hu1
  have harcv : 0 < Real.arccos v := Real.arccos_pos.mpr hv1
  have t1 := sin_mul_cos_lt (Real.arccos u) harcu (Real.arccos_le_pi u)
  have t2 := sin_mul_cos_lt (Real.arccos v) harcv (Real.arccos_le_pi v)
  rw [key]
  nlinarith [mul_pos (pow_pos hk0 2) (sub_pos.mpr t1), sub_pos.mpr t2]

/-- For `0 < k < 1` and separation `0 ≤ b < 1 + k` the intersection area
with the unit disk is strictly positive. -/
theorem ccia_one_pos (k b : ℝ) (hk0 : 0 < k) (hk1 : k < 1) (hb0 : 0 ≤ b) (hb : b < 1 + k) :
    0 < circle_circle_intersection_area 1 k b := by
  unfold circle_circle_intersection_area
  rw [if_neg (by push_neg; linarith : ¬ (1:ℝ) < b - k)]
  by_cases hg2 : (1:ℝ) ≥ b + k
  · rw [if_pos hg2]
    positivity
  · rw [if_neg hg2, if_neg (by push_neg; linarith : ¬ b - k ≤ -(1:ℝ))]
    push_neg at hg2
    exact lens_formula_pos k b hk0 hk1 (by linarith) hb

/-- The successive-difference loop telescopes: its sum is the cumulative
area at the final edge minus the seed. -/
theorem cciaDiffs_sum (k b : ℝ) (zs : List ℝ) (z0 : ℝ) :
    (cciaDiffs k b (circle_circle_intersection_area z0 k b) zs).sum
      = circle_circle_intersection_area (zs.getLastD z0) k b
        - circle_circle_intersection_area z0 k b := by
  induction zs generalizing z0 with
  | nil => simp [cciaDiffs, List.getLastD]
  | cons z zs ih =>
    simp only [cciaDiffs, List.sum_cons, List.getLastD_cons]
    rw [ih z]
    ring

/-- The raw weight row sums to the cumulative area at the last grid edge. -/
theorem cw2dRowRaw_sum (k b : ℝ) (z0 : ℝ) (zs : List ℝ) :
    (cw2dRowRaw k b (z0 :: zs)).sum
      = circle_circle_intersection_area (zs.getLastD z0) k b := by
  simp only [cw2dRowRaw, List.sum_cons]
  rw [cciaDiffs_sum]
  ring

/-- Summing a list divided elementwise by a constant divides the sum. -/
theorem sum_map_div (l : List ℝ) (c : ℝ) : (l.map (fun x => x / c)).sum = l.sum / c := by
  induction l with
  | nil => simp
  | cons z zs ih => simp [ih, add_div]

/-- A row with nonzero sum sums to exactly 1 after normalization. -/
theorem normalizeRow_sum (l : List ℝ) (h : l.sum ≠ 0) : (normalizeRow l).sum = 1 := by
  unfold normalizeRow
  rw [sum_map_div, div_self h]

/-- The grazing grid values are nonnegative. -/
theorem cw2d_gs_nonneg (ng ig : ℕ) (hng : 2 ≤ ng) : 0 ≤ cw2d_gs ng ig := by
  unfold cw2d_gs
  have hden : (0:ℝ) < (ng : ℝ) - 1 := by
    have : (2:ℝ) ≤ (ng : ℝ) := by exact_mod_cast hng
    linarith
  have hnum : (0:ℝ) ≤ 1 - 1e-7 := by norm_num
  positivity

/-- The grazing grid values stay strictly below 1. -/
theorem cw2d_gs_lt_one (ng ig : ℕ) (hng : 2 ≤ ng) (hig : ig < ng) : cw2d_gs ng ig < 1 := by
  unfold cw2d_gs
  have hden : (0:ℝ) < (ng : ℝ) - 1 := by
    have : (2:ℝ) ≤ (ng : ℝ) := by exact_mod_cast hng
    linarith
  have higR : (ig : ℝ) ≤ (ng : ℝ) - 1 := by
    have : (ig : ℝ) + 1 ≤ (ng : ℝ) := by exact_mod_cast hig
    linarith
  calc (ig : ℝ) * ((1 - 1e-7) / ((ng : ℝ) - 1))
      ≤ ((ng : ℝ) - 1) * ((1 - 1e-7) / ((ng : ℝ) - 1)) := by
        apply mul_le_mul_of_nonneg_right higR
        positivity
    _ = 1 - 1e-7 := by
        field_simp
    _ < 1 := by norm_num

/-- A normalized weight row sums to 1 whenever the grid ends at 1 and the
grazing offset stays below `1 + k`. -/
theorem normalized_row_sum_one (k b : ℝ) (z0 : ℝ) (zs : List ℝ)
    (hk0 : 0 < k) (hk1 : k < 1) (hb0 : 0 ≤ b) (hb : b < 1 + k)
    (hlast : zs.getLastD z0 = 1) :
    (normalizeRow (cw2dRowRaw k b (z0 :: zs))).sum = 1 := by
  apply normalizeRow_sum
  rw [cw2dRowRaw_sum, hlast]
  exact ne_of_gt (ccia_one_pos k b hk0 hk1 hb0 hb)

/-- C2: for radius ratio k in (0,1), grazing resolution ng ≥ 2, and a
z-grid whose edges end at 1, every row (fixed grazing index, and for the
3D table fixed radius-ratio index) of the weight tables produced by
`calculate_weights_2d` and `calculate_weights_3d` sums to exactly 1 (in
real arithmetic) after the in-place normalization. -/
theorem weight_table_rows_sum_to_one :
    (∀ (k z0 : ℝ) (zs : List ℝ) (ng ig : ℕ),
      0 < k → k < 1 → 2 ≤ ng → ig < ng → zs.getLastD z0 = 1 →
      (calculate_weights_2d_row k (z0 :: zs) ng ig).sum = 1)
    ∧ (∀ (k0 k1 z0 : ℝ) (zs : List ℝ) (nk ng ik ig : ℕ),
      0 < cw3d_ks k0 k1 nk ik → cw3d_ks k0 k1 nk ik < 1 → 2 ≤ ng → ig < ng →
      zs.getLastD z0 = 1 →
      (calculate_weights_3d_row k0 k1 nk (z0 :: zs) ng ik ig).sum = 1) := by
  constructor
  · intro k z0 zs ng ig hk0 hk1 hng hig hlast
    unfold calculate_weights_2d_row
    apply normalized_row_sum_one k _ z0 zs hk0 hk1 _ _ hlast
    · exact mul_nonneg (cw2d_gs_nonneg ng ig hng) (by linarith)
    · have := cw2d_gs_lt_one ng ig hng hig
      nlinarith
  · intro k0 k1 z0 zs nk ng ik ig hk0 hk1 hng hig hlast
    unfold calculate_weights_3d_row
    apply normalized_row_sum_one _ _ z0 zs hk0 hk1 _ _ hlast
    · exact mul_nonneg (cw2d_gs_nonneg ng ig hng) (by linarith)
    · have := cw2d_gs_lt_one ng ig hng hig
      nlinarith

/-- Witness for C2 on the one-edge grid `[1]` with k = 1/2, ng = 2, and on
a 3D table with ks = linspace(1/4, 3/4, 2). -/
theorem weight_table_rows_sum_to_one_witness :
    (calculate_weights_2d_row (1/2) [1] 2 0).sum = 1
    ∧ (calculate_weights_3d_row (1/4) (3/4) 2 [1] 2 0 1).sum = 1 :=
  ⟨weight_table_rows_sum_to_one.1 (1/2) 1 [] 2 0 (by norm_num) (by norm_num)
      (by norm_num) (by norm_num) rfl,
   weight_table_rows_sum_to_one.2 (1/4) (3/4) 1 [] 2 2 0 1
      (by norm_num [cw3d_ks]) (by norm_num [cw3d_ks]) (by norm_num) (by norm_num) rfl⟩

/-- C7 fails on the code: at the exact grid node k = ks[1], g = gs[0] of a
`calculate_weights_3d` table with nk = 2, ks = linspace(1/4, 3/4, 2),
ng = 2 and z-grid [1/2, 1], with the dk and dg values returned by
`calculate_weights_3d` and profile ldp = [1, 0], `im_p_s_3d` does not
return dot(weights[1][0], ldp): the radius-ratio fractional index is
computed with the grazing step dg (the dk argument is unused), so the two
radius-ratio rows are blended even at the node. -/
theorem im_p_s_3d_node_mismatch :
    im_p_s_3d (cw3d_ks (1/4) (3/4) 2 1) (cw2d_gs 2 0)
        (calculate_weights_3d_dk (1/4) (3/4) 2) (cw2d_dg 2)
        (fun ik ig => calculate_weights_3d_row (1/4) (3/4) 2 [1/2, 1] 2 ik ig) [1, 0] (1/4)
      ≠ dotl (calculate_weights_3d_row (1/4) (3/4) 2 [1/2, 1] 2 1 0) [1, 0] := by
  have hks : cw3d_ks (1/4) (3/4) 2 1 = 3/4 := by norm_num [cw3d_ks]
  have hks0 : cw3d_ks (1/4) (3/4) 2 0 = 1/4 := by norm_num [cw3d_ks]
  have hg : cw2d_gs 2 0 = 0 := by norm_num [cw2d_gs]
  have hdg : cw2d_dg 2 = 1 - 1e-7 := by norm_num [cw2d_dg, cw2d_gs]
  have hcA : circle_circle_intersection_area (1/2) (3/4) 0 = π * (1/2) ^ 2 := by
    unfold circle_circle_intersection_area
    rw [if_neg (by norm_num), if_neg (by norm_num), if_pos (by norm_num)]
  have hcB : circle_circle_intersection_area 1 (3/4) 0 = π * (3/4) ^ 2 := by
    unfold circle_circle_intersection_area
    rw [if_neg (by norm_num), if_pos (by norm_num)]
  have hcC : circle_circle_intersection_area (1/2) (1/4) 0 = π * (1/4) ^ 2 := by
    unfold circle_circle_intersection_area
    rw [if_neg (by norm_num), if_pos (by norm_num)]
  have hcD : circle_circle_intersection_area 1 (1/4) 0 = π * (1/4) ^ 2 := by
    unfold circle_circle_intersection_area
    rw [if_neg (by norm_num), if_pos (by norm_num)]
  have hw10 : calculate_weights_3d_row (1/4) (3/4) 2 [1/2, 1] 2 1 0 = [4/9, 5/9] := by
    unfold calculate_weights_3d_row
    rw [hks, hg, show (0:ℝ) * (1 + 3/4) = 0 by norm_num]
    simp only [cw2dRowRaw, cciaDiffs, normalizeRow, List.map, List.sum_cons, List.sum_nil,
      hcA, hcB]
    have hpi := Real.pi_ne_zero
    simp only [List.cons.injEq, and_true]
    constructor
    · rw [show π * (1/2:ℝ)^2 + (π * (3/4:ℝ)^2 - π * (1/2:ℝ)^2 + 0) = π * (9/16) by ring,
        show π * (1/2:ℝ)^2 = π * (1/4) by norm_num,
        mul_div_mul_left _ _ hpi]
      norm_num
    · rw [show π * (1/2:ℝ)^2 + (π * (3/4:ℝ)^2 - π * (1/2:ℝ)^2 + 0) = π * (9/16) by ring,
        show π * (3/4:ℝ)^2 - π * (1/2:ℝ)^2 = π * (5/16) by ring,
        mul_div_mul_left _ _ hpi]
      norm_num
  have hw00 : calculate_weights_3d_row (1/4) (3/4) 2 [1/2, 1] 2 0 0 = [1, 0] := by
    unfold calculate_weights_3d_row
    rw [hks0, hg, show (0:ℝ) * (1 + 1/4) = 0 by norm_num]
    simp only [cw2dRowRaw, cciaDiffs, normalizeRow, List.map, List.sum_cons, List.sum_nil,
      hcC, hcD]
    have hpi := Real.pi_ne_zero
    simp only [List.cons.injEq, and_true]
    constructor
    · rw [show π * (1/4:ℝ)^2 + (π * (1/4:ℝ)^2 - π * (1/4:ℝ)^2 + 0) = π * (1/4:ℝ)^2 by ring]
      exact div_self (by positivity)
    · rw [show π * (1/4:ℝ)^2 - π * (1/4:ℝ)^2 = 0 by ring, zero_div]
  have hfk : ⌊((3:ℝ)/4 - 1/4) / (1 - 1e-7)⌋ = 0 := by
    rw [show ((3:ℝ)/4 - 1/4) / (1 - 1e-7) = 5000000 / 9999999 by norm_num,
      Int.floor_eq_zero_iff, Set.mem_Ico]
    constructor <;> norm_num
  have hfg : ⌊(0:ℝ) / (1 - 1e-7)⌋ = 0 := by norm_num
  rw [hks, hg, hdg]
  unfold im_p_s_3d
  rw [if_neg (by norm_num : ¬ (0:ℝ) ≥ 1)]
  rw [hfk, hfg, hw10]
  simp only [Int.toNat_zero, Int.cast_zero, zero_add, hw00, hw10]
  rw [show (0:ℝ) / (1 - 1e-7) - 0 = 0 by norm_num]
  norm_num [dotl]

/-- `getD` at an in-bounds index does not depend on the default. -/
theorem getD_default_irrel (l : List ℝ) (i : ℕ) (h : i < l.length) (d e : ℝ) :
    l.getD i d = l.getD i e := by
  simp [List.getD_eq_getElem?_getD, List.getElem?_eq_getElem h]

/-- On a cons cell, `getLastD` is `getD` at the final index. -/
theorem getLastD_eq_getD (t : List ℝ) (a d : ℝ) :
    (a :: t).getLastD d = (a :: t).getD t.length d := by
  induction t generalizing a d with
  | nil => rfl
  | cons b t ih =>
    rw [List.getLastD_cons, ih b a, show (b :: t).length = t.length + 1 from rfl,
      List.getD_cons_succ]
    exact getD_default_irrel (b :: t) t.length (by simp) a d

/-- For a nonempty list, `getLastD 0` is `getD (length - 1) 0`. -/
theorem getLastD_eq_getD_len (l : List ℝ) (h : l ≠ []) :
    l.getLastD 0 = l.getD (l.length - 1) 0 := by
  cases l with
  | nil => exact absurd rfl h
  | cons a t =>
    rw [getLastD_eq_getD t a 0]
    simp

/-- The upward search of `interpolate_limb_darkening_s` lands on a bracket:
starting below the final node with `mz[i] < z`, it stops at an index `r`
with `mz[r] < z ≤ mz[r+1]` and `r + 1` in bounds. -/
theorem walk_up_spec (mz : List ℝ) (z : ℝ)
    (hlast : z ≤ mz.getD (mz.length - 1) 0) :
    ∀ f i, mz.getD i 0 < z → i < mz.length → mz.length - 1 - i ≤ f →
    mz.getD (walk_up mz z f i) 0 < z
      ∧ z ≤ mz.getD (walk_up mz z f i + 1) 0
      ∧ walk_up mz z f i + 1 < mz.length := by
  intro f
  induction f with
  | zero =>
    intro i hi hin hfuel
    exfalso
    have : i = mz.length - 1 := by omega
    rw [this] at hi
    linarith
  | succ f ih =>
    intro i hi hin hfuel
    have hi_lt : i < mz.length - 1 := by
      by_contra hc
      push_neg at hc
      have : i = mz.length - 1 := by omega
      rw [this] at hi
      linarith
    by_cases hg : z > mz.getD (i + 1) 0
    · have hred : walk_up mz z (f + 1) i = walk_up mz z f (i + 1) := by
        simp only [walk_up, if_pos hg]
      rw [hred]
      exact ih (i + 1) hg (by omega) (by omega)
    · have hred : walk_up mz z (f + 1) i = i := by
        simp only [walk_up, if_neg hg]
      rw [hred]
      push_neg at hg
      exact ⟨hi, hg, by omega⟩

/-- The downward search of `interpolate_limb_darkening_s` stops at an
index `r ≤ i` with `mz[r] ≤ z`, and if it moved at all then `z < mz[r+1]`. -/
theorem walk_down_spec (mz : List ℝ) (z : ℝ)
    (hz0 : 0 ≤ z) (hfirst : mz.getD 0 0 = 0) :
    ∀ f i, i ≤ f →
    walk_down mz z f i ≤ i
      ∧ mz.getD (walk_down mz z f i) 0 ≤ z
      ∧ (walk_down mz z f i < i → z < mz.getD (walk_down mz z f i + 1) 0) := by
  intro f
  induction f with
  | zero =>
    intro i hif
    have hi0 : i = 0 := by omega
    subst hi0
    have hred : walk_down mz z 0 0 = 0 := by simp only [walk_down]
    rw [hred]
    refine ⟨le_refl 0, ?_, ?_⟩
    · rw [hfirst]
      exact hz0
    · intro h
      omega
  | succ f ih =>
    intro i hif
    by_cases hg : z < mz.getD i 0
    · have hi1 : 1 ≤ i := by
        by_contra hc
        push_neg at hc
        have : i = 0 := by omega
        rw [this, hfirst] at hg
        linarith
      have hred : walk_down mz z (f + 1) i = walk_down mz z f (i - 1) := by
        simp only [walk_down, if_pos hg]
      rw [hred]
      obtain ⟨h1, h2, h3⟩ := ih (i - 1) (by omega)
      refine ⟨by omega, h2, ?_⟩
      intro _
      by_cases hlt : walk_down mz z f (i - 1) < i - 1
      · exact h3 hlt
      · have heq : walk_down mz z f (i - 1) = i - 1 := by omega
        rw [heq, show i - 1 + 1 = i by omega]
        exact hg
    · have hred : walk_down mz z (f + 1) i = i := by
        simp only [walk_down, if_neg hg]
      rw [hred]
      push_neg at hg
      exact ⟨le_refl i, hg, fun h => absurd h (lt_irrefl i)⟩

/-- The midpoint-started search of `interpolate_limb_darkening_s` lands on
a valid bracketing index for every query in `[0, mz[last]]`. -/
theorem ilds_index_spec (mz : List ℝ) (z : ℝ)
    (hmono : ∀ i j, i < j → j < mz.length → mz.getD i 0 < mz.getD j 0)
    (hfirst : mz.getD 0 0 = 0) (hlen2 : 2 ≤ mz.length) (hz0 : 0 ≤ z)
    (hzlast : z ≤ mz.getD (mz.length - 1) 0) :
    ilds_index z mz < mz.length
      ∧ mz.getD (ilds_index z mz) 0 ≤ z
      ∧ ((ilds_index z mz + 1 < mz.length ∧ z ≤ mz.getD (ilds_index z mz + 1) 0)
         ∨ (ilds_index z mz = mz.length - 1 ∧ z = mz.getD (ilds_index z mz) 0)) := by
  have hn0 : 0 < mz.length := by omega
  have hmid : mz.length / 2 < mz.length := Nat.div_lt_self hn0 (by norm_num)
  unfold ilds_index
  by_cases hg : z > mz.getD (mz.length / 2) 0
  · rw [if_pos hg]
    obtain ⟨h1, h2, h3⟩ :=
      walk_up_spec mz z hzlast mz.length (mz.length / 2) hg hmid (by omega)
    exact ⟨by omega, h1.le, Or.inl ⟨h3, h2⟩⟩
  · rw [if_neg hg]
    push_neg at hg
    obtain ⟨h1, h2, h3⟩ := walk_down_spec mz z hz0 hfirst mz.length (mz.length / 2) hmid.le
    refine ⟨by omega, h2, ?_⟩
    by_cases hlt : walk_down mz z mz.length (mz.length / 2) < mz.length / 2
    · have hb : walk_down mz z mz.length (mz.length / 2) + 1 < mz.length := by omega
      exact Or.inl ⟨hb, (h3 hlt).le⟩
    · have hreq : walk_down mz z mz.length (mz.length / 2) = mz.length / 2 := by omega
      have hzle : z ≤ mz.getD (walk_down mz z mz.length (mz.length / 2)) 0 := by
        rw [hreq]
        exact hg
      have hzeq : z = mz.getD (walk_down mz z mz.length (mz.length / 2)) 0 :=
        le_antisymm hzle h2
      by_cases hr1 : walk_down mz z mz.length (mz.length / 2) + 1 < mz.length
      · have hm := hmono (walk_down mz z mz.length (mz.length / 2))
          (walk_down mz z mz.length (mz.length / 2) + 1) (by omega) hr1
        rw [← hzeq] at hm
        exact Or.inl ⟨hr1, hm.le⟩
      · exact Or.inr ⟨by omega, hzeq⟩

/-- C8: for every strictly increasing node array mz with mz[0] = 0 (at
least two nodes) and profile array ldp of equal length,
`interpolate_limb_darkening_s` returns NaN (none) for z < 0, the last
profile value for z > mz[last], and otherwise the linear interpolation of
ldp between two bracketing nodes; `interpolate_limb_darkening_v` applies
the same policy per element, and no exception is raised anywhere. -/
theorem interpolate_limb_darkening_policy (mz ldp : List ℝ) (z : ℝ) (zs : List ℝ)
    (hmono : ∀ i j, i < j → j < mz.length → mz.getD i 0 < mz.getD j 0)
    (hfirst : mz.getD 0 0 = 0) (hlen2 : 2 ≤ mz.length) (hlen : ldp.length = mz.length) :
    (z < 0 → interpolate_limb_darkening_s z mz ldp = none)
    ∧ (z > mz.getLastD 0 → interpolate_limb_darkening_s z mz ldp = some (ldp.getLastD 0))
    ∧ (0 ≤ z → z ≤ mz.getLastD 0 →
        ∃ i, i + 1 < mz.length ∧ mz.getD i 0 ≤ z ∧ z ≤ mz.getD (i + 1) 0 ∧
          interpolate_limb_darkening_s z mz ldp =
            some ((1 - (z - mz.getD i 0) / (mz.getD (i + 1) 0 - mz.getD i 0)) * ldp.getD i 0
              + (z - mz.getD i 0) / (mz.getD (i + 1) 0 - mz.getD i 0) * ldp.getD (i + 1) 0))
    ∧ interpolate_limb_darkening_v zs mz ldp
        = zs.map (fun w => interpolate_limb_darkening_s w mz ldp) := by
  have hne : mz ≠ [] := by
    intro h
    rw [h] at hlen2
    simp at hlen2
  have hconv : mz.getLastD 0 = mz.getD (mz.length - 1) 0 := getLastD_eq_getD_len mz hne
  refine ⟨?_, ?_, ?_, rfl⟩
  · intro h
    unfold interpolate_limb_darkening_s
    rw [if_pos h]
  · intro h
    have hlastpos : 0 < mz.getD (mz.length - 1) 0 := by
      have := hmono 0 (mz.length - 1) (by omega) (by omega)
      rw [hfirst] at this
      exact this
    rw [hconv] at h
    unfold interpolate_limb_darkening_s
    rw [if_neg (by push_neg; linarith), if_pos (by rw [hconv]; exact h)]
  · intro hz0 hzlast
    rw [hconv] at hzlast
    obtain ⟨hrn, hrle, hbr⟩ := ilds_index_spec mz z hmono hfirst hlen2 hz0 hzlast
    have hval : interpolate_limb_darkening_s z mz ldp =
        some ((1 - (z - mz.getD (ilds_index z mz) 0)
              / (mz.getD (ilds_index z mz + 1) 0 - mz.getD (ilds_index z mz) 0))
            * ldp.getD (ilds_index z mz) 0
          + (z - mz.getD (ilds_index z mz) 0)
              / (mz.getD (ilds_index z mz + 1) 0 - mz.getD (ilds_index z mz) 0)
            * ldp.getD (ilds_index z mz + 1) 0) := by
      unfold interpolate_limb_darkening_s
      rw [if_neg (not_lt.mpr hz0), if_neg (by rw [hconv]; push_neg; exact hzlast)]
    set r := ilds_index z mz
    rcases hbr with ⟨hin, hub⟩ | ⟨hreq, hzeq⟩
    · exact ⟨r, hin, hrle, hub, hval⟩
    · refine ⟨r - 1, by omega, ?_, ?_, ?_⟩
      · have hm := hmono (r - 1) r (by omega) (by omega)
        rw [← hzeq] at hm
        exact hm.le
      · rw [show r - 1 + 1 = r by omega]
        exact le_of_eq hzeq
      · rw [hval]
        have hnum : z - mz.getD r 0 = 0 := sub_eq_zero.mpr hzeq
        have hdenpos : 0 < mz.getD r 0 - mz.getD (r - 1) 0 :=
          sub_pos.mpr (hmono (r - 1) r (by omega) (by omega))
        rw [hnum, zero_div, show r - 1 + 1 = r by omega]
        have hnum2 : (z - mz.getD (r - 1) 0) / (mz.getD r 0 - mz.getD (r - 1) 0) = 1 := by
          rw [hzeq]
          exact div_self (ne_of_gt hdenpos)
        rw [hnum2]
        congr 1
        ring

/-- Witness for C8 on the grid [0, 1]: a negative query yields the NaN
sentinel. -/
theorem interpolate_limb_darkening_policy_witness :
    interpolate_limb_darkening_s (-1) [0, 1] [1, 1/2] = none :=
  (interpolate_limb_darkening_policy [0, 1] [1, 1/2] (-1) []
    (by
      intro i j hij hj
      norm_num at hj
      interval_cases j
      · omega
      · interval_cases i
        norm_num [List.getD])
    rfl (by norm_num) rfl).1 (by norm_num)

end PyTransit
